import Mathlib

/-!
Shallow embedding of the DeepDive RAG backend (`backend/server.py`) and proofs
about its specification.

Python strings are modelled as `List Char`; Python dicts used as sparse
term-weight vectors are modelled as a `Finset` of keys together with a value
function (`SparseVec`); database rows fetched by SQL queries are modelled as
Lean lists in fetch order; the two external generation-service calls are
modelled as explicit `LLMResult` inputs; the rows the pipeline writes to the
`research_sessions` table are collected in the first component of the result.
-/

set_option maxHeartbeats 1000000

/-- Terms (tokens) produced by the tokenizer are Python strings. -/
abbrev Term := List Char

/-- Accumulator-based splitter behind `pyWords`: walks the string, collecting
the current (reversed) word in `acc` and emitting it at each whitespace run,
exactly like Python `str.split()` with no arguments. -/
def pyWordsAux : List Char → List Char → List (List Char)
  | [], acc => if acc = [] then [] else [acc.reverse]
  | c :: cs, acc =>
    if c.isWhitespace then
      if acc = [] then pyWordsAux cs [] else acc.reverse :: pyWordsAux cs []
    else pyWordsAux cs (c :: acc)

/-- Python `text.split()`: maximal runs of non-whitespace characters, in order;
empty pieces are never produced. -/
def pyWords (s : List Char) : List (List Char) := pyWordsAux s []

/-- Python `str.strip()`: remove leading and trailing whitespace. -/
def pyStrip (s : List Char) : List Char :=
  ((s.dropWhile Char.isWhitespace).reverse.dropWhile Char.isWhitespace).reverse

/-- Python `" ".join(words)`. -/
def joinWords : List (List Char) → List Char
  | [] => []
  | [w] => w
  | w :: ws => w ++ ' ' :: joinWords ws

/-- Number of iterations of Python `range(0, len, step)` for `step ≥ 1`:
the ceiling of `len / step`. -/
def numWindows (len step : ℕ) : ℕ := (len + step - 1) / step

/-- DocumentProcessor.chunk_text (server.py lines 184-195), defaults
`chunk_size=500`, `overlap=50`.  `words = text.split()`; the loop
`for i in range(0, len(words), chunk_size - overlap)` joins
`words[i:i+chunk_size]` and appends the stripped chunk when non-empty.
Python `range` raises `ValueError` when the step `chunk_size - overlap`
is zero (modelled as `none`) and yields no iterations at all when the
step is negative (so every word of the input is silently dropped). -/
def chunk_text (text : List Char) (chunk_size : ℕ := 500) (overlap : ℕ := 50) :
    Option (List (List Char)) :=
  let words := pyWords text
  if chunk_size = overlap then none
  else if chunk_size < overlap then some []
  else
    let step := chunk_size - overlap
    some (((List.range' 0 (numWindows words.length step) step).map
        (fun i => (words.drop i).take chunk_size)).filterMap
      (fun win =>
        let c := pyStrip (joinWords win)
        if c = [] then none else some c))

/-- The stop-word set of RetrievalEngine.preprocess_text (line 207). -/
def stop_words : List Term :=
  (["the", "a", "an", "and", "or", "but", "in", "on", "at", "to", "for", "of",
    "with", "by", "is", "are", "was", "were", "be", "been", "being", "have",
    "has", "had", "do", "does", "did", "will", "would", "could", "should"]).map
    String.toList

/-- Characters kept by the regex substitution
`re.sub(r'[^a-zA-Z0-9\s]', '', text.lower())`: after lowercasing, only ASCII
lowercase letters, digits and whitespace survive. -/
def cleanChar (c : Char) : Bool :=
  ('a' ≤ c && c ≤ 'z') || ('0' ≤ c && c ≤ '9') || c.isWhitespace

/-- RetrievalEngine.preprocess_text (lines 200-208): lowercase, strip special
characters, split on whitespace, drop stop words and tokens of length ≤ 2. -/
def preprocess_text (text : List Char) : List Term :=
  (pyWords ((text.map Char.toLower).filter cleanChar)).filter
    (fun w => decide (w ∉ stop_words ∧ 2 < w.length))

/-- A Python dict mapping terms to float weights: the finite set of keys plus
the stored value for each key (values outside `keys` are unobservable; the
code reads such dicts only through `.get(word, 0)`, `.keys()` and
`.values()`). -/
structure SparseVec where
  keys : Finset Term
  val : Term → ℝ

/-- Python `vec.get(word, 0)`. -/
def SparseVec.get (v : SparseVec) (w : Term) : ℝ :=
  if w ∈ v.keys then v.val w else 0

/-- The all-empty dict `{}`. -/
def SparseVec.empty : SparseVec := ⟨∅, fun _ => 0⟩

/-- The magnitude computed inside RetrievalEngine.cosine_similarity:
`math.sqrt(sum(val ** 2 for val in vec.values()))`. -/
noncomputable def magnitude (v : SparseVec) : ℝ :=
  Real.sqrt (∑ w ∈ v.keys, v.val w ^ 2)

/-- RetrievalEngine.cosine_similarity (lines 244-258): dot product over the
union of the key sets, divided by the product of magnitudes; `0` when either
magnitude is zero. -/
noncomputable def cosine_similarity (vec1 vec2 : SparseVec) : ℝ :=
  if magnitude vec1 = 0 ∨ magnitude vec2 = 0 then 0
  else (∑ w ∈ vec1.keys ∪ vec2.keys, vec1.get w * vec2.get w) /
    (magnitude vec1 * magnitude vec2)

/-- The preprocessed token lists of all chunks (line 214). -/
def processedChunks (chunks : List (List Char)) : List (List Term) :=
  chunks.map preprocess_text

/-- Document frequency of a term (lines 221-224): the number of chunks whose
preprocessed token list contains the term. -/
def document_frequency (chunks : List (List Char)) (w : Term) : ℕ :=
  (processedChunks chunks).countP (fun cw => decide (w ∈ cw))

/-- RetrievalEngine.calculate_tf_idf for chunk `i` (lines 210-242): the keys
are the distinct preprocessed tokens of chunk `i`, and each token is mapped to
`tf * idf` with `tf = count / total_tokens` and
`idf = ln(total_docs / document_frequency)`. -/
noncomputable def calculate_tf_idf (chunks : List (List Char)) (i : ℕ) :
    SparseVec :=
  let chunk_words := (processedChunks chunks).getD i []
  { keys := chunk_words.toFinset,
    val := fun w =>
      ((chunk_words.count w : ℝ) / (chunk_words.length : ℝ)) *
        Real.log ((chunks.length : ℝ) / (document_frequency chunks w : ℝ)) }

/-- A row of the `document_chunks` table joined with its document's filename,
as fetched by RetrievalEngine.search_chunks (lines 265-270). -/
structure StoredChunk where
  id : String
  content : List Char
  document_id : String
  chunk_index : ℕ
  tf_idf_vector : SparseVec
  filename : String

/-- One entry of the `scored_chunks` list built in search_chunks
(lines 309-318). -/
structure ScoredChunk where
  id : String
  content : List Char
  document_id : String
  chunk_index : ℕ
  filename : String
  score : ℝ
  semantic_score : ℝ
  keyword_score : ℝ

/-- The query-side vector of search_chunks (lines 279-285): raw term
frequency over the distinct preprocessed query words, with no IDF factor. -/
noncomputable def query_tfidf (query : List Char) : SparseVec :=
  let query_words := preprocess_text query
  { keys := query_words.toFinset,
    val := fun w => (query_words.count w : ℝ) / (query_words.length : ℝ) }

/-- Scoring of one fetched chunk in search_chunks (lines 289-318):
`semantic_score` is the cosine similarity of the query vector and the stored
TF-IDF vector, `keyword_score` counts query-word occurrences (with
multiplicity) found in the chunk's preprocessed token list divided by the
number of query words (`0` for an empty query-word list), and
`final_score = 0.6 * semantic_score + 0.4 * keyword_score`. -/
noncomputable def scoreChunk (query : List Char) (c : StoredChunk) :
    ScoredChunk :=
  let query_words := preprocess_text query
  let semantic_score := cosine_similarity (query_tfidf query) c.tf_idf_vector
  let chunk_words := preprocess_text c.content
  let keyword_matches := query_words.countP (fun w => decide (w ∈ chunk_words))
  let keyword_score : ℝ :=
    if query_words = [] then 0
    else (keyword_matches : ℝ) / (query_words.length : ℝ)
  { id := c.id, content := c.content, document_id := c.document_id,
    chunk_index := c.chunk_index, filename := c.filename,
    score := 0.6 * semantic_score + 0.4 * keyword_score,
    semantic_score := semantic_score, keyword_score := keyword_score }

/-- Insertion step of a stable descending sort by a real-valued key: `x` is
placed before the first element whose key is not greater than `key x`.  This
is extensionally the stable sort that Python's
`scored_chunks.sort(key=lambda x: x['score'], reverse=True)` performs. -/
noncomputable def insertByScore {α : Type} (key : α → ℝ) (x : α) :
    List α → List α
  | [] => [x]
  | y :: ys => if key y ≤ key x then x :: y :: ys else y :: insertByScore key x ys

/-- Stable descending insertion sort by a real-valued key (line 321). -/
noncomputable def sortByScoreDesc {α : Type} (key : α → ℝ) : List α → List α
  | [] => []
  | x :: xs => insertByScore key x (sortByScoreDesc key xs)

/-- RetrievalEngine.search_chunks (lines 260-322): fetch all chunks (the `db`
argument, in SQL fetch order), return `[]` when there are none, otherwise
score every chunk, sort by `final_score` descending (stable) and return the
first `top_k`. -/
noncomputable def search_chunks (query : List Char) (db : List StoredChunk)
    (top_k : ℕ) : List ScoredChunk :=
  match db with
  | [] => []
  | _ :: _ => (sortByScoreDesc (fun sc => sc.score) (db.map (scoreChunk query))).take top_k

/-- Fuel-based worker for `pySplitOn`.  Each recursive call consumes at least
one character of the remaining string, so fuel equal to the string length is
always sufficient when the separator is non-empty. -/
def splitOnAux (sep : List Char) : ℕ → List Char → List Char → List (List Char)
  | _, acc, [] => [acc.reverse]
  | 0, acc, s => [acc.reverse ++ s]
  | fuel + 1, acc, c :: cs =>
    if sep.isPrefixOf (c :: cs) then
      acc.reverse :: splitOnAux sep fuel [] ((c :: cs).drop sep.length)
    else splitOnAux sep fuel (c :: acc) cs

/-- Python `s.split(sep)` for a non-empty separator: split at every
non-overlapping occurrence, scanning left to right, keeping empty pieces. -/
def pySplitOn (s sep : List Char) : List (List Char) :=
  splitOnAux sep s.length [] s

/-- Fuel-based worker for `pyReplace`. -/
def replaceAux (pat rep : List Char) : ℕ → List Char → List Char
  | _, [] => []
  | 0, s => s
  | fuel + 1, c :: cs =>
    if pat.isPrefixOf (c :: cs) then
      rep ++ replaceAux pat rep fuel ((c :: cs).drop pat.length)
    else c :: replaceAux pat rep fuel cs

/-- Python `s.replace(pat, rep)` for a non-empty pattern: replace every
non-overlapping occurrence, scanning left to right. -/
def pyReplace (s pat rep : List Char) : List Char :=
  replaceAux pat rep s.length s

/-- Python `pat in s` (substring containment). -/
def containsSub (s pat : List Char) : Bool :=
  (List.range (s.length + 1)).any (fun i => pat.isPrefixOf (s.drop i))

/-- Parsing of the first generation response (lines 365-374): when the text
contains `INITIAL_ANSWER:`, split on `GAP_QUESTIONS:`, take the part before
the first occurrence with the `INITIAL_ANSWER:` labels removed and stripped as
the initial answer; when a part after the label exists, split it on `;`,
strip each piece and keep the non-empty ones as gap questions.  When the
label `INITIAL_ANSWER:` is absent both the answer (`""`) and the gap list
keep their initial empty values. -/
def parseFirst (first_response : List Char) : List Char × List (List Char) :=
  if containsSub first_response "INITIAL_ANSWER:".toList then
    let parts := pySplitOn first_response "GAP_QUESTIONS:".toList
    let initial_answer := pyStrip (pyReplace (parts.getD 0 []) "INITIAL_ANSWER:".toList [])
    let gap_questions :=
      if 1 < parts.length then
        ((pySplitOn (pyStrip (parts.getD 1 [])) [';']).map pyStrip).filter
          (fun q => decide (q ≠ []))
      else []
    (initial_answer, gap_questions)
  else ([], [])

/-- Parsing of the final generation response (lines 418-420): strip the
`FINAL_ANSWER:` labels when present, otherwise keep the raw text. -/
def parseFinal (final_response : List Char) : List Char :=
  if containsSub final_response "FINAL_ANSWER:".toList then
    pyStrip (pyReplace final_response "FINAL_ANSWER:".toList [])
  else final_response

/-- A citation dict as built in lines 423-431. -/
structure Citation where
  id : String
  source_number : ℕ
  filename : String
  content : List Char
  score : ℝ

/-- Content excerpt of a citation: the first 200 characters plus `...` when
the content is longer than 200 characters (line 429). -/
def truncateContent (content : List Char) : List Char :=
  if 200 < content.length then content.take 200 ++ "...".toList else content

/-- Citation construction (lines 423-431): the i-th deduplicated chunk gets
`source_number = i + 1`. -/
noncomputable def buildCitations (unique_chunks : List ScoredChunk) :
    List Citation :=
  unique_chunks.enum.map (fun p =>
    { id := p.2.id, source_number := p.1 + 1, filename := p.2.filename,
      content := truncateContent p.2.content, score := p.2.score })

/-- Deduplication by chunk id (lines 383-390): walk the concatenated list,
keeping a chunk exactly when its id has not been seen before. -/
noncomputable def dedupById (seen : Finset String) :
    List ScoredChunk → List ScoredChunk
  | [] => []
  | c :: cs =>
    if c.id ∈ seen then dedupById seen cs
    else c :: dedupById (insert c.id seen) cs

/-- Outcome of one external generation call. -/
inductive LLMResult where
  | ok (text : List Char)
  | err (msg : List Char)

/-- A row written to the `research_sessions` table: the completed insert of
lines 434-450 stores every field, the failed insert of lines 472-477 stores
only the query (with status `failed`). -/
inductive SessionRow where
  | completed (query : List Char) (step1_chunks : List String)
      (step1_answer : List Char) (gap_questions : List (List Char))
      (step3_chunks : List String) (final_answer : List Char)
      (citations : List Citation)
  | failed (query : List Char)

/-- Status string of a persisted session row. -/
def SessionRow.statusOf : SessionRow → String
  | .completed .. => "completed"
  | .failed _ => "failed"

/-- The step-1 answer stored in a session row (`none` for a failed row, whose
insert leaves the column NULL). -/
def SessionRow.step1AnswerOf : SessionRow → Option (List Char)
  | .completed _ _ a _ _ _ _ => some a
  | .failed _ => none

/-- The gap-question list stored in a session row. -/
def SessionRow.gapQuestionsOf : SessionRow → Option (List (List Char))
  | .completed _ _ _ g _ _ _ => some g
  | .failed _ => none

/-- The query stored in a session row. -/
def SessionRow.queryOf : SessionRow → List Char
  | .completed q _ _ _ _ _ _ => q
  | .failed q => q

/-- The dict returned by RAGPipeline.process_query on success
(lines 452-467); the timeline is modelled by its numeric content
(step number and count per entry). -/
structure SuccessPayload where
  query : List Char
  step1_answer : List Char
  gap_questions : List (List Char)
  final_answer : List Char
  citations : List Citation
  timeline : List (ℕ × ℕ)

/-- RAGPipeline.process_query (lines 327-479).  Inputs: the chunk rows the
two `search_chunks` SQL queries see (`db`, constant during one pipeline run),
the two generation-service outcomes, and the query.  Output: the list of
session rows inserted into `research_sessions`, and either a plain message
string (`Sum.inl`, the early no-documents return of lines 336-337 and the
exception handler of lines 469-479) or the success payload (`Sum.inr`).
Note that the no-documents early return inserts no session row; only the
exception handler inserts a `failed` row. -/
noncomputable def process_query (db : List StoredChunk) (llm1 llm2 : LLMResult)
    (query : List Char) : List SessionRow × (List Char ⊕ SuccessPayload) :=
  match search_chunks query db 8 with
  | [] => ([], Sum.inl "No documents found. Please upload some documents first.".toList)
  | c1 :: rest1 =>
    let step1_chunks := c1 :: rest1
    match llm1 with
    | .err e => ([.failed query], Sum.inl ("Error processing query: ".toList ++ e))
    | .ok first_response =>
      let parsed := parseFirst first_response
      let initial_answer := parsed.1
      let gap_questions := parsed.2
      let step3_chunks :=
        (gap_questions.map (fun g => search_chunks g db 5)).flatten
      let unique_chunks := dedupById ∅ (step1_chunks ++ step3_chunks)
      match llm2 with
      | .err e => ([.failed query], Sum.inl ("Error processing query: ".toList ++ e))
      | .ok final_response =>
        let final_answer := parseFinal final_response
        let citations := buildCitations unique_chunks
        ([.completed query (step1_chunks.map (fun c => c.id)) initial_answer
            gap_questions (step3_chunks.map (fun c => c.id)) final_answer
            citations],
          Sum.inr
            { query := query, step1_answer := initial_answer,
              gap_questions := gap_questions, final_answer := final_answer,
              citations := citations,
              timeline := [(1, step1_chunks.length), (2, gap_questions.length),
                (3, step3_chunks.length), (4, citations.length),
                (5, unique_chunks.length)] })

/-- The response model of the `/api/research` route (lines 88-96 and
628-646); absent optional fields are `none`. -/
structure ResearchResponse where
  query : List Char
  status : String
  step1_answer : Option (List Char)
  gap_questions : List (List Char)
  final_answer : Option (List Char)
  citations : List Citation
  timeline : List (ℕ × ℕ)

/-- Result of an API route: a value or an HTTP error. -/
inductive ApiResult (α : Type) where
  | ok (value : α)
  | httpError (code : ℕ) (detail : List Char)

/-- The research_query route (lines 628-646): reject blank queries with HTTP
400, run the pipeline on the stripped query, and wrap a string result in a
`failed` response whose `final_answer` carries the message — no exception
escapes on that path. -/
noncomputable def research_query (db : List StoredChunk) (llm1 llm2 : LLMResult)
    (query : List Char) : List SessionRow × ApiResult ResearchResponse :=
  if pyStrip query = [] then ([], .httpError 400 "Query cannot be empty".toList)
  else
    let r := process_query db llm1 llm2 (pyStrip query)
    match r.2 with
    | Sum.inl msg =>
      (r.1, .ok
        { query := query, status := "failed", step1_answer := none,
          gap_questions := [], final_answer := some msg, citations := [],
          timeline := [] })
    | Sum.inr payload =>
      (r.1, .ok
        { query := payload.query, status := "completed",
          step1_answer := some payload.step1_answer,
          gap_questions := payload.gap_questions,
          final_answer := some payload.final_answer,
          citations := payload.citations, timeline := payload.timeline })

/-- A row of the `documents` table (the fields delete_all_documents touches). -/
structure DocumentRow where
  id : String
  filename : String
  chunk_count : ℕ

/-- The persistent store: the three SQLite tables. -/
structure AppState where
  documents : List DocumentRow
  document_chunks : List StoredChunk
  research_sessions : List SessionRow

/-- The JSON body returned by delete_all_documents (lines 618-622): a message
and counts for documents and chunks only — no session count is reported. -/
structure DeleteAllResponse where
  message : String
  deleted_documents : ℕ
  deleted_chunks : ℕ

/-- The DELETE `/api/documents` route (lines 595-626): count documents and
chunks, then delete every chunk, every document and every research session,
and report only the document and chunk counts. -/
def delete_all_documents (s : AppState) : AppState × DeleteAllResponse :=
  let doc_count := s.documents.length
  let chunk_count := s.document_chunks.length
  ({ documents := [], document_chunks := [], research_sessions := [] },
   { message := "All documents deleted successfully",
     deleted_documents := doc_count, deleted_chunks := chunk_count })

/-- Concrete scored chunk used in examples: empty content and vector, all
scores zero. -/
noncomputable def exChunk (i : String) : ScoredChunk :=
  { id := i, content := [], document_id := "d", chunk_index := 0,
    filename := "f", score := 0, semantic_score := 0, keyword_score := 0 }

/-- Term frequency as the specification words it: occurrences of the term in
the chunk divided by the chunk's total surviving token count. -/
noncomputable def tf_spec (toks : List Term) (w : Term) : ℝ :=
  (toks.count w : ℝ) / (toks.length : ℝ)

/-- The weight the specification prescribes:
`tfidf(term, chunk) = tf(term, chunk) * ln(N / df(term))` with `N` the number
of chunks in the indexed set. -/
noncomputable def tfidf_weight_spec (chunks : List (List Char)) (i : ℕ)
    (w : Term) : ℝ :=
  tf_spec (preprocess_text (chunks.getD i [])) w *
    Real.log ((chunks.length : ℝ) / (document_frequency chunks w : ℝ))

/-- Concrete stored chunk with an empty TF-IDF vector, used in the
counterexamples. -/
noncomputable def cexChunk (i : String) : StoredChunk :=
  { id := i, content := "doc".toList, document_id := "d", chunk_index := 0,
    tf_idf_vector := SparseVec.empty, filename := "f" }

/-- The specification's keyword score: the number of query terms present in
the candidate's normalized token set, divided by the number of query terms,
and `0` when the query has no surviving terms. -/
noncomputable def keyword_score_spec (query content : List Char) : ℝ :=
  let qws := preprocess_text query
  if qws = [] then 0
  else ((qws.countP (fun w => decide (w ∈ preprocess_text content))) : ℝ)
    / (qws.length : ℝ)

/-! ### Lemmas about deduplication and citations (claim C2) -/

theorem dedupById_sublist (seen : Finset String) (l : List ScoredChunk) :
    (dedupById seen l).Sublist l := by
  induction l generalizing seen with
  | nil => simp [dedupById]
  | cons c cs ih =>
    simp only [dedupById]
    split
    · exact (ih seen).cons c
    · exact (ih (insert c.id seen)).cons₂ c

theorem dedupById_id_not_seen (seen : Finset String) (l : List ScoredChunk) :
    ∀ c ∈ dedupById seen l, c.id ∉ seen := by
  induction l generalizing seen with
  | nil => simp [dedupById]
  | cons a as ih =>
    intro c hc
    simp only [dedupById] at hc
    split at hc
    · exact ih seen c hc
    · rcases List.mem_cons.mp hc with h | h
      · subst h; assumption
      · intro hmem
        exact ih (insert a.id seen) c h (Finset.mem_insert_of_mem hmem)

theorem dedupById_nodup (seen : Finset String) (l : List ScoredChunk) :
    ((dedupById seen l).map (fun c => c.id)).Nodup := by
  induction l generalizing seen with
  | nil => simp [dedupById]
  | cons a as ih =>
    simp only [dedupById]
    split
    · exact ih seen
    · rw [List.map_cons, List.nodup_cons]
      refine ⟨?_, ih (insert a.id seen)⟩
      intro hmem
      rcases List.mem_map.mp hmem with ⟨c, hc, hid⟩
      exact dedupById_id_not_seen _ _ c hc (hid ▸ Finset.mem_insert_self a.id seen)

theorem dedupById_complete (seen : Finset String) (l : List ScoredChunk) :
    ∀ x ∈ l, x.id ∈ seen ∨ x.id ∈ (dedupById seen l).map (fun c => c.id) := by
  induction l generalizing seen with
  | nil => simp
  | cons a as ih =>
    intro x hx
    simp only [dedupById]
    rcases List.mem_cons.mp hx with h | h
    · subst h
      split
      · exact Or.inl (by assumption)
      · exact Or.inr (by simp)
    · split
      · exact ih seen x h
      · rcases ih (insert a.id seen) x h with hs | hs
        · rcases Finset.mem_insert.mp hs with h1 | h1
          · exact Or.inr (by simp [h1])
          · exact Or.inl h1
        · exact Or.inr (by simp [hs])

theorem dedupById_first_occurrence (seen : Finset String) (l : List ScoredChunk) :
    ∀ c ∈ dedupById seen l, l.find? (fun x => x.id == c.id) = some c := by
  induction l generalizing seen with
  | nil => simp [dedupById]
  | cons a as ih =>
    intro c hc
    simp only [dedupById] at hc
    split at hc
    · have hid : c.id ∉ seen := dedupById_id_not_seen seen as c hc
      have hne : ¬((a.id == c.id) = true) := by
        simp only [beq_iff_eq]
        intro h
        exact hid (h ▸ (by assumption))
      rw [List.find?_cons_of_neg (p := fun x : ScoredChunk => x.id == c.id) _ hne]
      exact ih seen c hc
    · rcases List.mem_cons.mp hc with h | h
      · subst h
        exact List.find?_cons_of_pos _ (by simp)
      · have hid : c.id ∉ insert a.id seen :=
          dedupById_id_not_seen (insert a.id seen) as c h
        have hne : ¬((a.id == c.id) = true) := by
          simp only [beq_iff_eq]
          intro heq
          exact hid (heq ▸ Finset.mem_insert_self a.id seen)
        rw [List.find?_cons_of_neg (p := fun x : ScoredChunk => x.id == c.id) _ hne]
        exact ih (insert a.id seen) c h

theorem enumFrom_map_succ_fst {α : Type} (n : ℕ) (l : List α) :
    (List.enumFrom n l).map (fun p => p.1 + 1) = List.range' (n + 1) l.length := by
  induction l generalizing n with
  | nil => simp
  | cons a as ih => simp [List.enumFrom, List.range', ih]

theorem buildCitations_numbers (u : List ScoredChunk) :
    (buildCitations u).map (fun ct => ct.source_number) = List.range' 1 u.length := by
  simp only [buildCitations, List.map_map]
  exact enumFrom_map_succ_fst 0 u

theorem buildCitations_ids (u : List ScoredChunk) :
    (buildCitations u).map (fun ct => ct.id) = u.map (fun c => c.id) := by
  simp only [buildCitations, List.map_map]
  have h : ((fun ct : Citation => ct.id) ∘ fun p : ℕ × ScoredChunk =>
      ({ id := p.2.id, source_number := p.1 + 1, filename := p.2.filename,
         content := truncateContent p.2.content, score := p.2.score } : Citation))
      = (fun c : ScoredChunk => c.id) ∘ Prod.snd := rfl
  rw [h, ← List.map_map, List.enum_map_snd]

/-- C2: deduplication keeps the first occurrence of each chunk id in
first-seen order (step-1 order, then gap-retrieval order), and citations
number the deduplicated chunks contiguously 1..N in exactly that order; in
particular step-1 ids `[a, b]` merged with gap ids `[b, c]` yield order
`[a, b, c]` with citation numbers `1, 2, 3`. -/
theorem dedup_first_seen_order_and_citations (s1 s3 : List ScoredChunk) :
    ((dedupById ∅ (s1 ++ s3)).map (fun c => c.id)).Nodup
    ∧ (dedupById ∅ (s1 ++ s3)).Sublist (s1 ++ s3)
    ∧ (∀ x ∈ s1 ++ s3, x.id ∈ (dedupById ∅ (s1 ++ s3)).map (fun c => c.id))
    ∧ (∀ c ∈ dedupById ∅ (s1 ++ s3),
        (s1 ++ s3).find? (fun x => x.id == c.id) = some c)
    ∧ (buildCitations (dedupById ∅ (s1 ++ s3))).map (fun ct => ct.source_number)
        = List.range' 1 (dedupById ∅ (s1 ++ s3)).length
    ∧ (buildCitations (dedupById ∅ (s1 ++ s3))).map (fun ct => ct.id)
        = (dedupById ∅ (s1 ++ s3)).map (fun c => c.id)
    ∧ dedupById ∅ ([exChunk "a", exChunk "b"] ++ [exChunk "b", exChunk "c"])
        = [exChunk "a", exChunk "b", exChunk "c"]
    ∧ (buildCitations (dedupById ∅
          ([exChunk "a", exChunk "b"] ++ [exChunk "b", exChunk "c"]))).map
        (fun ct => ct.source_number) = [1, 2, 3] := by
  refine ⟨dedupById_nodup ∅ _, dedupById_sublist ∅ _, ?_, ?_, ?_, ?_, rfl, rfl⟩
  · intro x hx
    rcases dedupById_complete ∅ (s1 ++ s3) x hx with h | h
    · exact absurd h (Finset.not_mem_empty _)
    · exact h
  · exact dedupById_first_occurrence ∅ (s1 ++ s3)
  · exact buildCitations_numbers _
  · exact buildCitations_ids _

/-- Witness for C2: the completeness and first-occurrence facts applied on
the concrete example lists. -/
theorem dedup_first_seen_order_and_citations_witness :
    (exChunk "c").id ∈ (dedupById ∅
        ([exChunk "a", exChunk "b"] ++ [exChunk "b", exChunk "c"])).map
      (fun c => c.id)
    ∧ ([exChunk "a", exChunk "b"] ++ [exChunk "b", exChunk "c"]).find?
        (fun x => x.id == (exChunk "b").id) = some (exChunk "b") := by
  have h := dedup_first_seen_order_and_citations [exChunk "a", exChunk "b"]
    [exChunk "b", exChunk "c"]
  refine ⟨h.2.2.1 (exChunk "c") (by simp), h.2.2.2.1 (exChunk "b") ?_⟩
  show exChunk "b" ∈ dedupById ∅
    ([exChunk "a", exChunk "b"] ++ [exChunk "b", exChunk "c"])
  rw [h.2.2.2.2.2.2.1]
  simp

/-- C10: the DELETE `/api/documents` route clears the documents, chunks and
research-session tables alike, while reporting only the document and chunk
counts (the `DeleteAllResponse` model has no session-count field). -/
theorem delete_all_clears_sessions_too (s : AppState) :
    (delete_all_documents s).1.documents = []
    ∧ (delete_all_documents s).1.document_chunks = []
    ∧ (delete_all_documents s).1.research_sessions = []
    ∧ (delete_all_documents s).2.deleted_documents = s.documents.length
    ∧ (delete_all_documents s).2.deleted_chunks = s.document_chunks.length :=
  ⟨rfl, rfl, rfl, rfl, rfl⟩

/-- C8 (code bug): `chunk_text` neither rejects nor clamps `overlap ≥ size`.
With `overlap = size` the Python `range` step is zero and an uncaught
`ValueError` escapes (modelled as `none`); with `overlap > size` the step is
negative, `range` yields no iterations, and the function silently returns an
empty chunk list even though the input text contains words. -/
theorem chunk_text_overlap_ge_size_misbehaves :
    chunk_text "hello world".toList 2 2 = none
    ∧ chunk_text "hello world".toList 1 2 = some []
    ∧ pyWords "hello world".toList ≠ [] := by
  refine ⟨rfl, rfl, ?_⟩
  decide

/-! ### Lemmas about cosine similarity (claim C6) -/

theorem magnitude_nonneg (v : SparseVec) : 0 ≤ magnitude v :=
  Real.sqrt_nonneg _

theorem magnitude_empty : magnitude SparseVec.empty = 0 := by
  simp [magnitude, SparseVec.empty]

theorem SparseVec.get_nonneg {v : SparseVec} (h : ∀ w ∈ v.keys, 0 ≤ v.val w)
    (w : Term) : 0 ≤ v.get w := by
  unfold SparseVec.get
  split
  · exact h w (by assumption)
  · exact le_refl 0

/-- The sum of squared stored values equals the sum of squared `get` values
over any superset of the keys. -/
theorem sum_sq_vals_eq (v : SparseVec) (s : Finset Term) (hs : v.keys ⊆ s) :
    ∑ w ∈ v.keys, v.val w ^ 2 = ∑ w ∈ s, v.get w ^ 2 := by
  have h1 : ∑ w ∈ v.keys, v.val w ^ 2 = ∑ w ∈ v.keys, v.get w ^ 2 :=
    Finset.sum_congr rfl (fun w hw => by simp only [SparseVec.get, if_pos hw])
  rw [h1]
  exact Finset.sum_subset hs
    (fun w _ hw => by simp only [SparseVec.get, if_neg hw]; ring)

/-- Magnitude as the square root of the summed squared `get` values over any
superset of the keys. -/
theorem magnitude_eq_sqrt_sum (v : SparseVec) (s : Finset Term)
    (hs : v.keys ⊆ s) : magnitude v = Real.sqrt (∑ w ∈ s, v.get w ^ 2) := by
  rw [magnitude, sum_sq_vals_eq v s hs]

theorem cosine_dot_symm (u v : SparseVec) :
    ∑ w ∈ u.keys ∪ v.keys, u.get w * v.get w
      = ∑ w ∈ v.keys ∪ u.keys, v.get w * u.get w := by
  rw [Finset.union_comm]
  exact Finset.sum_congr rfl (fun w _ => mul_comm _ _)

/-- C6: cosine similarity as implemented is symmetric; it is bounded in
`[0, 1]` whenever both vectors store only non-negative weights; and it is `0`
whenever either vector has zero magnitude, in particular against the empty
(zero) vector. -/
theorem cosine_similarity_props (u v : SparseVec) :
    cosine_similarity u v = cosine_similarity v u
    ∧ ((∀ w ∈ u.keys, 0 ≤ u.val w) → (∀ w ∈ v.keys, 0 ≤ v.val w) →
        0 ≤ cosine_similarity u v ∧ cosine_similarity u v ≤ 1)
    ∧ (magnitude u = 0 → cosine_similarity u v = 0)
    ∧ (magnitude v = 0 → cosine_similarity u v = 0)
    ∧ cosine_similarity u SparseVec.empty = 0 := by
  have hsymm : cosine_similarity u v = cosine_similarity v u := by
    unfold cosine_similarity
    by_cases h : magnitude u = 0 ∨ magnitude v = 0
    · rw [if_pos h, if_pos h.symm]
    · rw [if_neg h, if_neg (fun hc => h hc.symm), cosine_dot_symm u v,
        mul_comm (magnitude u) (magnitude v)]
  refine ⟨hsymm, ?_, ?_, ?_, ?_⟩
  · intro hu hv
    by_cases h : magnitude u = 0 ∨ magnitude v = 0
    · rw [cosine_similarity, if_pos h]
      exact ⟨le_refl 0, zero_le_one⟩
    · push_neg at h
      have humag : 0 < magnitude u := lt_of_le_of_ne (magnitude_nonneg u) (Ne.symm h.1)
      have hvmag : 0 < magnitude v := lt_of_le_of_ne (magnitude_nonneg v) (Ne.symm h.2)
      have hdenom : 0 < magnitude u * magnitude v := mul_pos humag hvmag
      have hget_u := SparseVec.get_nonneg hu
      have hget_v := SparseVec.get_nonneg hv
      have hdot : 0 ≤ ∑ w ∈ u.keys ∪ v.keys, u.get w * v.get w :=
        Finset.sum_nonneg (fun w _ => mul_nonneg (hget_u w) (hget_v w))
      rw [cosine_similarity, if_neg (by push_neg; exact h)]
      constructor
      · exact div_nonneg hdot hdenom.le
      · rw [div_le_one hdenom]
        have hcs := Finset.sum_mul_sq_le_sq_mul_sq (u.keys ∪ v.keys)
          (fun w => u.get w) (fun w => v.get w)
        have hu2 : ∑ w ∈ u.keys ∪ v.keys, u.get w ^ 2 = magnitude u ^ 2 := by
          rw [magnitude_eq_sqrt_sum u (u.keys ∪ v.keys) Finset.subset_union_left,
            Real.sq_sqrt (Finset.sum_nonneg (fun w _ => sq_nonneg _))]
        have hv2 : ∑ w ∈ u.keys ∪ v.keys, v.get w ^ 2 = magnitude v ^ 2 := by
          rw [magnitude_eq_sqrt_sum v (u.keys ∪ v.keys) Finset.subset_union_right,
            Real.sq_sqrt (Finset.sum_nonneg (fun w _ => sq_nonneg _))]
        have hsq : (∑ w ∈ u.keys ∪ v.keys, u.get w * v.get w) ^ 2
            ≤ (magnitude u * magnitude v) ^ 2 := by
          rw [mul_pow]
          calc (∑ w ∈ u.keys ∪ v.keys, u.get w * v.get w) ^ 2
              ≤ (∑ w ∈ u.keys ∪ v.keys, u.get w ^ 2) *
                  ∑ w ∈ u.keys ∪ v.keys, v.get w ^ 2 := hcs
            _ = magnitude u ^ 2 * magnitude v ^ 2 := by rw [hu2, hv2]
        calc ∑ w ∈ u.keys ∪ v.keys, u.get w * v.get w
            = Real.sqrt ((∑ w ∈ u.keys ∪ v.keys, u.get w * v.get w) ^ 2) :=
              (Real.sqrt_sq hdot).symm
          _ ≤ Real.sqrt ((magnitude u * magnitude v) ^ 2) :=
              Real.sqrt_le_sqrt hsq
          _ = magnitude u * magnitude v := Real.sqrt_sq hdenom.le
  · intro h
    rw [cosine_similarity, if_pos (Or.inl h)]
  · intro h
    rw [cosine_similarity, if_pos (Or.inr h)]
  · rw [cosine_similarity, if_pos (Or.inr magnitude_empty)]

/-- Witness for C6: the bounds and the zero-magnitude case at concrete
vectors. -/
theorem cosine_similarity_props_witness :
    (0 ≤ cosine_similarity ⟨{"aa".toList}, fun _ => 2⟩ ⟨{"bb".toList}, fun _ => 3⟩
      ∧ cosine_similarity ⟨{"aa".toList}, fun _ => 2⟩ ⟨{"bb".toList}, fun _ => 3⟩ ≤ 1)
    ∧ cosine_similarity SparseVec.empty ⟨{"bb".toList}, fun _ => 3⟩ = 0 := by
  constructor
  · exact (cosine_similarity_props ⟨{"aa".toList}, fun _ => 2⟩
        ⟨{"bb".toList}, fun _ => 3⟩).2.1
      (fun w _ => by norm_num) (fun w _ => by norm_num)
  · exact (cosine_similarity_props SparseVec.empty
      ⟨{"bb".toList}, fun _ => 3⟩).2.2.1 magnitude_empty

/-! ### Lemmas about TF-IDF (claim C9) -/

theorem processedChunks_getD (chunks : List (List Char)) (i : ℕ)
    (hi : i < chunks.length) :
    (processedChunks chunks).getD i [] = preprocess_text (chunks.getD i []) := by
  have hlen : i < (processedChunks chunks).length := by
    simpa [processedChunks] using hi
  rw [List.getD_eq_getElem _ _ hlen, List.getD_eq_getElem _ _ hi]
  simp [processedChunks]

/-- C9: for a chunk index inside the indexed set, every key of the TF-IDF
vector has document frequency at least 1 (so the weight is well defined);
every key's weight is the specification's `tf * ln(N / df)`; a term occurring
in every chunk of the set receives weight 0; and a chunk with no surviving
tokens yields the all-zero (empty) mapping rather than an error. -/
theorem calculate_tf_idf_props (chunks : List (List Char)) (i : ℕ)
    (hi : i < chunks.length) :
    (∀ w ∈ (calculate_tf_idf chunks i).keys, 1 ≤ document_frequency chunks w)
    ∧ (∀ w ∈ (calculate_tf_idf chunks i).keys,
        (calculate_tf_idf chunks i).get w = tfidf_weight_spec chunks i w)
    ∧ (∀ w, (∀ pc ∈ processedChunks chunks, w ∈ pc) →
        (calculate_tf_idf chunks i).get w = 0)
    ∧ (preprocess_text (chunks.getD i []) = [] →
        ∀ w, (calculate_tf_idf chunks i).get w = 0) := by
  have hgetD := processedChunks_getD chunks i hi
  have hkeys : (calculate_tf_idf chunks i).keys
      = ((processedChunks chunks).getD i []).toFinset := rfl
  refine ⟨?_, ?_, ?_, ?_⟩
  · intro w hw
    rw [hkeys, List.mem_toFinset] at hw
    have hmem : (processedChunks chunks).getD i [] ∈ processedChunks chunks := by
      have hlen : i < (processedChunks chunks).length := by
        simpa [processedChunks] using hi
      rw [List.getD_eq_getElem _ _ hlen]
      exact List.getElem_mem hlen
    have : 0 < document_frequency chunks w :=
      List.countP_pos_iff.mpr ⟨_, hmem, by simpa using hw⟩
    omega
  · intro w hw
    rw [hkeys, List.mem_toFinset] at hw
    show (if w ∈ (calculate_tf_idf chunks i).keys then _ else _) = _
    rw [if_pos (by rw [hkeys, List.mem_toFinset]; exact hw)]
    simp only [calculate_tf_idf, tfidf_weight_spec, tf_spec, hgetD]
  · intro w hall
    by_cases hw : w ∈ (calculate_tf_idf chunks i).keys
    · have hdf : document_frequency chunks w = chunks.length := by
        have : document_frequency chunks w = (processedChunks chunks).length :=
          List.countP_eq_length.mpr (fun pc hpc => by simpa using hall pc hpc)
        simpa [processedChunks] using this
      show (if w ∈ (calculate_tf_idf chunks i).keys then _ else _) = 0
      rw [if_pos hw]
      have hN : (chunks.length : ℝ) ≠ 0 := by
        have : 0 < chunks.length := Nat.lt_of_le_of_lt (Nat.zero_le i) hi
        exact_mod_cast Nat.pos_iff_ne_zero.mp this
      simp only [calculate_tf_idf, hdf, div_self hN, Real.log_one, mul_zero]
    · show (if w ∈ (calculate_tf_idf chunks i).keys then _ else _) = 0
      rw [if_neg hw]
  · intro hempty w
    show (if w ∈ (calculate_tf_idf chunks i).keys then _ else _) = 0
    rw [if_neg]
    rw [hkeys, List.mem_toFinset, hgetD, hempty]
    exact List.not_mem_nil w

/-- Witness for C9 at concrete chunk sets: `beta` appears in both chunks of
the first set, so its weight in chunk 0 is zero and its document frequency is
positive; the first chunk of the second set has no surviving tokens, so its
mapping is identically zero. -/
theorem calculate_tf_idf_props_witness :
    1 ≤ document_frequency ["alpha beta alpha".toList, "beta beta".toList]
        "beta".toList
    ∧ (calculate_tf_idf ["alpha beta alpha".toList, "beta beta".toList] 0).get
        "beta".toList = 0
    ∧ (calculate_tf_idf ["alpha beta alpha".toList, "beta beta".toList] 0).get
        "beta".toList
        = tfidf_weight_spec ["alpha beta alpha".toList, "beta beta".toList] 0
            "beta".toList
    ∧ (calculate_tf_idf ["a b".toList, "alpha".toList] 0).get "zz".toList = 0 := by
  have h1 := calculate_tf_idf_props ["alpha beta alpha".toList, "beta beta".toList]
    0 (by decide)
  have h2 := calculate_tf_idf_props ["a b".toList, "alpha".toList] 0 (by decide)
  refine ⟨h1.1 "beta".toList (by decide), h1.2.2.1 "beta".toList (by decide),
    h1.2.1 "beta".toList (by decide), h2.2.2.2 (by decide) "zz".toList⟩

/-! ### Lemmas about the scorer's stable descending sort (claims C3, C5) -/

theorem insertByScore_perm {α : Type} (key : α → ℝ) (x : α) (l : List α) :
    List.Perm (insertByScore key x l) (x :: l) := by
  induction l with
  | nil => exact List.Perm.refl _
  | cons y ys ih =>
    simp only [insertByScore]
    split
    · exact List.Perm.refl _
    · exact List.Perm.trans (ih.cons y) (List.Perm.swap x y ys)

theorem sortByScoreDesc_perm {α : Type} (key : α → ℝ) (l : List α) :
    List.Perm (sortByScoreDesc key l) l := by
  induction l with
  | nil => exact List.Perm.refl _
  | cons x xs ih =>
    exact List.Perm.trans (insertByScore_perm key x (sortByScoreDesc key xs))
      (ih.cons x)

theorem mem_insertByScore {α : Type} (key : α → ℝ) (x a : α) (l : List α) :
    a ∈ insertByScore key x l ↔ a = x ∨ a ∈ l := by
  rw [(insertByScore_perm key x l).mem_iff, List.mem_cons]

theorem insertByScore_pairwise {α : Type} (key : α → ℝ) (x : α) (l : List α)
    (hl : l.Pairwise (fun a b => key b ≤ key a)) :
    (insertByScore key x l).Pairwise (fun a b => key b ≤ key a) := by
  induction l with
  | nil => simp [insertByScore]
  | cons y ys ih =>
    rw [List.pairwise_cons] at hl
    simp only [insertByScore]
    by_cases hxy : key y ≤ key x
    · rw [if_pos hxy]
      refine List.Pairwise.cons ?_ (List.Pairwise.cons hl.1 hl.2)
      intro b hb
      rcases List.mem_cons.mp hb with h | h
      · subst h; exact hxy
      · exact le_trans (hl.1 b h) hxy
    · rw [if_neg hxy]
      push_neg at hxy
      refine List.Pairwise.cons ?_ (ih hl.2)
      intro b hb
      rcases (mem_insertByScore key x b ys).mp hb with h | h
      · subst h; exact hxy.le
      · exact hl.1 b h

theorem sortByScoreDesc_pairwise {α : Type} (key : α → ℝ) (l : List α) :
    (sortByScoreDesc key l).Pairwise (fun a b => key b ≤ key a) := by
  induction l with
  | nil => simp [sortByScoreDesc]
  | cons x xs ih => exact insertByScore_pairwise key x _ ih

theorem insertByScore_pairwise_lex {α : Type} (key : α → ℝ) (x : ℕ × α)
    (l : List (ℕ × α))
    (hl : l.Pairwise (fun p q => key q.2 < key p.2 ∨ (key p.2 = key q.2 ∧ p.1 < q.1)))
    (hx : ∀ q ∈ l, x.1 < q.1) :
    (insertByScore (fun p => key p.2) x l).Pairwise
      (fun p q => key q.2 < key p.2 ∨ (key p.2 = key q.2 ∧ p.1 < q.1)) := by
  induction l with
  | nil => simp [insertByScore]
  | cons y ys ih =>
    rw [List.pairwise_cons] at hl
    simp only [insertByScore]
    by_cases hxy : key y.2 ≤ key x.2
    · rw [if_pos hxy]
      refine List.Pairwise.cons ?_ (List.Pairwise.cons hl.1 hl.2)
      intro q hq
      have hqle : key q.2 ≤ key y.2 := by
        rcases List.mem_cons.mp hq with h | h
        · subst h; exact le_refl _
        · rcases hl.1 q h with h1 | h1
          · exact h1.le
          · exact h1.1.ge
      rcases lt_or_eq_of_le (le_trans hqle hxy) with h1 | h1
      · exact Or.inl h1
      · exact Or.inr ⟨h1.symm, hx q hq⟩
    · rw [if_neg hxy]
      push_neg at hxy
      refine List.Pairwise.cons ?_
        (ih hl.2 (fun q hq => hx q (List.mem_cons_of_mem y hq)))
      intro q hq
      rcases (mem_insertByScore _ x q ys).mp hq with h | h
      · subst h; exact Or.inl hxy
      · exact hl.1 q h

theorem sortByScoreDesc_pairwise_lex {α : Type} (key : α → ℝ)
    (l : List (ℕ × α)) (hl : l.Pairwise (fun p q => p.1 < q.1)) :
    (sortByScoreDesc (fun p => key p.2) l).Pairwise
      (fun p q => key q.2 < key p.2 ∨ (key p.2 = key q.2 ∧ p.1 < q.1)) := by
  induction l with
  | nil => simp [sortByScoreDesc]
  | cons x xs ih =>
    rw [List.pairwise_cons] at hl
    refine insertByScore_pairwise_lex key x _ (ih hl.2) ?_
    intro q hq
    exact hl.1 q ((sortByScoreDesc_perm (fun p => key p.2) xs).mem_iff.mp hq)

theorem map_snd_insertByScore {α : Type} (key : α → ℝ) (x : ℕ × α)
    (l : List (ℕ × α)) :
    (insertByScore (fun p => key p.2) x l).map Prod.snd
      = insertByScore key x.2 (l.map Prod.snd) := by
  induction l with
  | nil => rfl
  | cons y ys ih =>
    simp only [insertByScore, List.map_cons]
    by_cases h : key y.2 ≤ key x.2
    · rw [if_pos h, if_pos h]
      simp
    · rw [if_neg h, if_neg h, List.map_cons, ih]

theorem map_snd_sortByScoreDesc {α : Type} (key : α → ℝ) (l : List (ℕ × α)) :
    (sortByScoreDesc (fun p => key p.2) l).map Prod.snd
      = sortByScoreDesc key (l.map Prod.snd) := by
  induction l with
  | nil => rfl
  | cons x xs ih =>
    simp only [sortByScoreDesc, List.map_cons]
    rw [map_snd_insertByScore, ih]

theorem le_fst_of_mem_enumFrom {α : Type} (n : ℕ) (l : List α) :
    ∀ p ∈ List.enumFrom n l, n ≤ p.1 := by
  induction l generalizing n with
  | nil => simp
  | cons a as ih =>
    intro p hp
    rcases List.mem_cons.mp hp with h | h
    · subst h; exact le_refl n
    · exact Nat.le_of_succ_le (ih (n + 1) p h)

theorem enumFrom_pairwise_fst_lt {α : Type} (n : ℕ) (l : List α) :
    (List.enumFrom n l).Pairwise (fun p q => p.1 < q.1) := by
  induction l generalizing n with
  | nil => simp
  | cons a as ih =>
    refine List.Pairwise.cons ?_ (ih (n + 1))
    intro q hq
    exact Nat.lt_of_lt_of_le (Nat.lt_succ_self n) (le_fst_of_mem_enumFrom (n + 1) as q hq)

theorem search_chunks_eq_take (query : List Char) (db : List StoredChunk)
    (k : ℕ) :
    search_chunks query db k
      = (sortByScoreDesc (fun sc => sc.score) (db.map (scoreChunk query))).take k := by
  cases db with
  | nil => simp [search_chunks, sortByScoreDesc]
  | cons c cs => rfl

/-- C3 amended: the scorer's output is sorted by `final_score` descending,
and among candidates with equal `final_score` the one earlier in the stored
candidate (fetch) order comes first — the sort is stable in input order, not
keyed on chunk id.  Stability is expressed on the index-tagged candidate
list: the sorted tagged list is pairwise ordered by strictly greater score
or (equal score and smaller original index), and projecting the tags away
yields exactly the scorer's output. -/
theorem scorer_sorted_desc_stable (query : List Char) (db : List StoredChunk)
    (k : ℕ) :
    (search_chunks query db k).Pairwise (fun a b => b.score ≤ a.score)
    ∧ search_chunks query db k
        = ((sortByScoreDesc (fun p => p.2.score)
            (db.map (scoreChunk query)).enum).map Prod.snd).take k
    ∧ (sortByScoreDesc (fun p => p.2.score)
        (db.map (scoreChunk query)).enum).Pairwise
        (fun p q => q.2.score < p.2.score
          ∨ (p.2.score = q.2.score ∧ p.1 < q.1)) := by
  refine ⟨?_, ?_, ?_⟩
  · rw [search_chunks_eq_take]
    exact List.Pairwise.sublist (List.take_sublist k _)
      (sortByScoreDesc_pairwise _ _)
  · rw [search_chunks_eq_take,
      map_snd_sortByScoreDesc (fun sc : ScoredChunk => sc.score),
      List.enum_map_snd]
  · exact sortByScoreDesc_pairwise_lex (fun sc : ScoredChunk => sc.score) _
      (by simpa [List.enum] using
        enumFrom_pairwise_fst_lt 0 (db.map (scoreChunk query)))

theorem scoreChunk_empty_query (c : StoredChunk) :
    (scoreChunk [] c).score = 0 ∧ (scoreChunk [] c).semantic_score = 0
    ∧ (scoreChunk [] c).keyword_score = 0 := by
  have hpre : preprocess_text [] = [] := rfl
  have hqkeys : (query_tfidf []).keys = ∅ := rfl
  have hqmag : magnitude (query_tfidf []) = 0 := by
    rw [magnitude, hqkeys, Finset.sum_empty, Real.sqrt_zero]
  have hsem : cosine_similarity (query_tfidf []) c.tf_idf_vector = 0 := by
    rw [cosine_similarity, if_pos (Or.inl hqmag)]
  have hkw : (scoreChunk [] c).keyword_score = 0 := by
    simp only [scoreChunk, hpre, if_pos]
  have hsem2 : (scoreChunk [] c).semantic_score = 0 := by
    simp only [scoreChunk]
    exact hsem
  refine ⟨?_, hsem2, hkw⟩
  show 0.6 * (scoreChunk [] c).semantic_score
      + 0.4 * (scoreChunk [] c).keyword_score = 0
  rw [hsem2, hkw]
  norm_num

/-- C3 counterexample: with two stored candidates of equal `final_score`
fetched in the order `["b", "a"]`, the scorer returns them in fetch order
`["b", "a"]` even though chunk id `"a" < "b"` — ties are not broken by lower
chunk id. -/
theorem scorer_tie_not_by_chunk_id :
    (search_chunks [] [cexChunk "b", cexChunk "a"] 10).map (fun sc => sc.id)
      = ["b", "a"]
    ∧ (search_chunks [] [cexChunk "b", cexChunk "a"] 10).map (fun sc => sc.score)
      = [0, 0]
    ∧ ("a" : String) < "b" := by
  have hb := (scoreChunk_empty_query (cexChunk "b")).1
  have ha := (scoreChunk_empty_query (cexChunk "a")).1
  have hsort : sortByScoreDesc (fun sc : ScoredChunk => sc.score)
      [scoreChunk [] (cexChunk "b"), scoreChunk [] (cexChunk "a")]
      = [scoreChunk [] (cexChunk "b"), scoreChunk [] (cexChunk "a")] := by
    simp only [sortByScoreDesc, insertByScore]
    rw [if_pos (by rw [ha, hb])]
  have hsearch : search_chunks [] [cexChunk "b", cexChunk "a"] 10
      = [scoreChunk [] (cexChunk "b"), scoreChunk [] (cexChunk "a")] := by
    rw [search_chunks_eq_take, List.map_cons, List.map_cons, List.map_nil,
      hsort]
    rfl
  refine ⟨?_, ?_, by rw [String.lt_iff_toList_lt]; decide⟩
  · rw [hsearch]
    rfl
  · rw [hsearch, List.map_cons, List.map_cons, List.map_nil, ha, hb]

/-- C5: the scorer returns `[]` for an empty candidate set (no error), the
`min k n` top candidates otherwise (all of them when fewer than `k` exist),
each taken from the descending stable sort, and every returned candidate
satisfies `final_score = 0.6 * semantic_score + 0.4 * keyword_score` with the
keyword score of the specification. -/
theorem scorer_topk_and_formula (query : List Char) (db : List StoredChunk)
    (k : ℕ) :
    search_chunks query [] k = []
    ∧ (search_chunks query db k).length = min k db.length
    ∧ search_chunks query db k
        = (sortByScoreDesc (fun sc => sc.score) (db.map (scoreChunk query))).take k
    ∧ (∀ sc ∈ search_chunks query db k,
        sc.score = 0.6 * sc.semantic_score + 0.4 * sc.keyword_score
        ∧ sc.keyword_score = keyword_score_spec query sc.content) := by
  refine ⟨rfl, ?_, search_chunks_eq_take query db k, ?_⟩
  · rw [search_chunks_eq_take, List.length_take,
      (sortByScoreDesc_perm _ _).length_eq, List.length_map]
  · intro sc hsc
    rw [search_chunks_eq_take] at hsc
    have hmem : sc ∈ db.map (scoreChunk query) :=
      (sortByScoreDesc_perm (fun sc : ScoredChunk => sc.score) _).mem_iff.mp
        (List.mem_of_mem_take hsc)
    rcases List.mem_map.mp hmem with ⟨c, _, hc⟩
    subst hc
    exact ⟨rfl, rfl⟩

/-- Witness for C5: the formula facts applied to the single candidate
returned on a one-chunk corpus. -/
theorem scorer_topk_and_formula_witness :
    scoreChunk [] (cexChunk "a") ∈ search_chunks [] [cexChunk "a"] 1
    ∧ (scoreChunk [] (cexChunk "a")).score
        = 0.6 * (scoreChunk [] (cexChunk "a")).semantic_score
          + 0.4 * (scoreChunk [] (cexChunk "a")).keyword_score
    ∧ (scoreChunk [] (cexChunk "a")).keyword_score
        = keyword_score_spec [] (scoreChunk [] (cexChunk "a")).content := by
  have hmem : scoreChunk [] (cexChunk "a") ∈ search_chunks [] [cexChunk "a"] 1 :=
    List.mem_singleton.mpr rfl
  have h := (scorer_topk_and_formula [] [cexChunk "a"] 1).2.2.2
    (scoreChunk [] (cexChunk "a")) hmem
  exact ⟨hmem, h.1, h.2⟩

/-! ### The empty-corpus path (claim C1) -/

/-- C1 counterexample: on an empty corpus the pipeline does return the
no-documents message, but it persists no session row at all — in particular
no `failed` session preserving the query, contrary to the claim (the
`failed` insert lives only in the exception handler, which the early return
of lines 336-337 never reaches). -/
theorem no_evidence_no_session_persisted :
    (process_query [] (.ok "resp1".toList) (.ok "resp2".toList)
        "test".toList).1 = []
    ∧ (process_query [] (.ok "resp1".toList) (.ok "resp2".toList)
        "test".toList).2
      = Sum.inl "No documents found. Please upload some documents first.".toList :=
  ⟨rfl, rfl⟩

/-- C1 amended: when step-1 retrieval returns zero chunks (always the case on
an empty corpus), the pipeline terminates in the failed outcome — the caller
of the research route receives a `failed` response carrying the
human-readable no-documents message and no exception escapes — but no
research session row is persisted on this path. -/
theorem no_evidence_failed_outcome (llm1 llm2 : LLMResult)
    (query : List Char) :
    process_query [] llm1 llm2 query
      = ([], Sum.inl
          "No documents found. Please upload some documents first.".toList)
    ∧ (pyStrip query ≠ [] →
        research_query [] llm1 llm2 query
          = ([], .ok
              { query := query, status := "failed", step1_answer := none,
                gap_questions := [],
                final_answer := some
                  "No documents found. Please upload some documents first.".toList,
                citations := [], timeline := [] })) := by
  refine ⟨rfl, fun h => ?_⟩
  simp only [research_query, if_neg h]
  rfl

/-- Witness for C1 at a concrete non-blank query. -/
theorem no_evidence_failed_outcome_witness :
    pyStrip "  what is rag? ".toList ≠ []
    ∧ research_query [] (.ok "r1".toList) (.ok "r2".toList)
        "  what is rag? ".toList
      = ([], .ok
          { query := "  what is rag? ".toList, status := "failed",
            step1_answer := none, gap_questions := [],
            final_answer := some
              "No documents found. Please upload some documents first.".toList,
            citations := [], timeline := [] }) := by
  have h : pyStrip "  what is rag? ".toList ≠ [] := by decide
  exact ⟨h, (no_evidence_failed_outcome (.ok "r1".toList) (.ok "r2".toList)
    "  what is rag? ".toList).2 h⟩

/-! ### Unparseable first generation response (claim C4) -/

/-- C4 counterexample: when the first generation response lacks the
`INITIAL_ANSWER:` label, the persisted completed session carries an EMPTY
step-1 answer — not the raw response text `"hello"` — together with an empty
gap list; the session still completes and no error is surfaced. -/
theorem unparseable_first_response_not_raw :
    (process_query [cexChunk "a"] (.ok "hello".toList) (.ok "done".toList)
        "q".toList).1.map SessionRow.step1AnswerOf = [some []]
    ∧ (process_query [cexChunk "a"] (.ok "hello".toList) (.ok "done".toList)
        "q".toList).1.map SessionRow.statusOf = ["completed"]
    ∧ (process_query [cexChunk "a"] (.ok "hello".toList) (.ok "done".toList)
        "q".toList).1.map SessionRow.gapQuestionsOf = [some []]
    ∧ "hello".toList ≠ ([] : List Char) := by
  refine ⟨rfl, rfl, rfl, by decide⟩

/-- C4 amended: a first generation response without the expected
`INITIAL_ANSWER:` label parses to an EMPTY step-1 answer (not the raw text)
and an empty gap-question list; the pipeline then continues: whenever step-1
retrieval is non-empty and the second generation call succeeds, exactly one
session row is written, it is `completed` with empty step-1 answer and empty
gap list, and the caller receives the success payload — no parse error is
surfaced and the session is never abandoned. -/
theorem unparseable_first_response_degrades (r1 : List Char)
    (hr1 : containsSub r1 "INITIAL_ANSWER:".toList = false) :
    parseFirst r1 = ([], [])
    ∧ ∀ (db : List StoredChunk) (r2 query : List Char),
        search_chunks query db 8 ≠ [] →
        ((process_query db (.ok r1) (.ok r2) query).1.map SessionRow.statusOf
            = ["completed"]
          ∧ (process_query db (.ok r1) (.ok r2) query).1.map
              SessionRow.step1AnswerOf = [some []]
          ∧ (process_query db (.ok r1) (.ok r2) query).1.map
              SessionRow.gapQuestionsOf = [some []]
          ∧ (process_query db (.ok r1) (.ok r2) query).2.isRight = true) := by
  have hparse : parseFirst r1 = ([], []) := by
    have hcond : ¬(containsSub r1 "INITIAL_ANSWER:".toList = true) := by
      rw [hr1]
      exact Bool.false_ne_true
    unfold parseFirst
    rw [if_neg hcond]
  refine ⟨hparse, ?_⟩
  intro db r2 query hne
  rcases hsearch : search_chunks query db 8 with _ | ⟨c, rest⟩
  · exact absurd hsearch hne
  · unfold process_query
    rw [hsearch]
    simp only [hparse, List.map_nil, List.flatten_nil, List.map_cons,
      SessionRow.statusOf, SessionRow.step1AnswerOf, SessionRow.gapQuestionsOf,
      Sum.isRight]
    simp

/-- Witness for C4 on a concrete one-chunk corpus and unparseable first
response. -/
theorem unparseable_first_response_degrades_witness :
    containsSub "hello".toList "INITIAL_ANSWER:".toList = false
    ∧ search_chunks "q".toList [cexChunk "a"] 8 ≠ []
    ∧ ((process_query [cexChunk "a"] (.ok "hello".toList) (.ok "done".toList)
          "q".toList).1.map SessionRow.statusOf = ["completed"]
        ∧ (process_query [cexChunk "a"] (.ok "hello".toList)
            (.ok "done".toList) "q".toList).1.map SessionRow.step1AnswerOf
          = [some []]
        ∧ (process_query [cexChunk "a"] (.ok "hello".toList)
            (.ok "done".toList) "q".toList).1.map SessionRow.gapQuestionsOf
          = [some []]
        ∧ (process_query [cexChunk "a"] (.ok "hello".toList)
            (.ok "done".toList) "q".toList).2.isRight = true) := by
  have h1 : containsSub "hello".toList "INITIAL_ANSWER:".toList = false := by
    decide
  have h2 : search_chunks "q".toList [cexChunk "a"] 8 ≠ [] :=
    List.cons_ne_nil _ _
  exact ⟨h1, h2, (unparseable_first_response_degrades "hello".toList h1).2
    [cexChunk "a"] "done".toList "q".toList h2⟩

/-! ### Lemmas about the chunker (claim C7) -/

theorem pyWordsAux_words_good (s : List Char) :
    ∀ acc, (∀ c ∈ acc, c.isWhitespace = false) →
      ∀ w ∈ pyWordsAux s acc, w ≠ [] ∧ ∀ c ∈ w, c.isWhitespace = false := by
  induction s with
  | nil =>
    intro acc hacc w hw
    simp only [pyWordsAux] at hw
    split at hw
    · simp at hw
    · rename_i hne
      rcases List.mem_singleton.mp hw with rfl
      refine ⟨by simpa using hne, ?_⟩
      intro c hc
      exact hacc c (List.mem_reverse.mp hc)
  | cons c cs ih =>
    intro acc hacc w hw
    simp only [pyWordsAux] at hw
    by_cases hws : c.isWhitespace = true
    · rw [if_pos hws] at hw
      split at hw
      · exact ih [] (by simp) w hw
      · rename_i hne
        rcases List.mem_cons.mp hw with rfl | hw2
        · refine ⟨by simpa using hne, ?_⟩
          intro d hd
          exact hacc d (List.mem_reverse.mp hd)
        · exact ih [] (by simp) w hw2
    · rw [if_neg hws] at hw
      refine ih (c :: acc) ?_ w hw
      intro d hd
      rcases List.mem_cons.mp hd with rfl | hd2
      · exact Bool.not_eq_true _ |>.mp hws
      · exact hacc d hd2

theorem pyWords_good (s : List Char) :
    ∀ w ∈ pyWords s, w ≠ [] ∧ ∀ c ∈ w, c.isWhitespace = false :=
  pyWordsAux_words_good s [] (by simp)

theorem pyWordsAux_append_nonws (w : List Char)
    (hw : ∀ c ∈ w, c.isWhitespace = false) :
    ∀ (s acc : List Char), pyWordsAux (w ++ s) acc
      = pyWordsAux s (w.reverse ++ acc) := by
  induction w with
  | nil => intro s acc; simp
  | cons c cw ih =>
    intro s acc
    have hc : c.isWhitespace = false := hw c (List.mem_cons_self c cw)
    have hcw : ∀ d ∈ cw, d.isWhitespace = false :=
      fun d hd => hw d (List.mem_cons_of_mem c hd)
    simp only [List.cons_append, pyWordsAux, List.append_eq]
    rw [if_neg (by simp [hc]), ih hcw s (c :: acc)]
    congr 1
    simp

theorem pyWordsAux_ws_cons (c : Char) (hc : c.isWhitespace = true)
    (s acc : List Char) (hacc : acc ≠ []) :
    pyWordsAux (c :: s) acc = acc.reverse :: pyWordsAux s [] := by
  simp only [pyWordsAux]
  rw [if_pos hc, if_neg hacc]

theorem pyWords_joinWords (ws : List (List Char))
    (h : ∀ w ∈ ws, w ≠ [] ∧ ∀ c ∈ w, c.isWhitespace = false) :
    pyWords (joinWords ws) = ws := by
  induction ws with
  | nil => rfl
  | cons w ws2 ih =>
    have hw := h w (List.mem_cons_self w ws2)
    cases ws2 with
    | nil =>
      have h1 : pyWordsAux (w ++ []) [] = pyWordsAux [] (w.reverse ++ []) :=
        pyWordsAux_append_nonws w hw.2 [] []
      rw [List.append_nil, List.append_nil] at h1
      show pyWordsAux (joinWords [w]) [] = [w]
      have hj : joinWords [w] = w := rfl
      rw [hj, h1]
      simp only [pyWordsAux]
      rw [if_neg (by simpa using hw.1)]
      simp
    | cons x xs =>
      have hj : joinWords (w :: x :: xs) = w ++ ' ' :: joinWords (x :: xs) := rfl
      have h1 : pyWordsAux (w ++ ' ' :: joinWords (x :: xs)) []
          = pyWordsAux (' ' :: joinWords (x :: xs)) (w.reverse ++ []) :=
        pyWordsAux_append_nonws w hw.2 _ []
      rw [List.append_nil] at h1
      show pyWordsAux (joinWords (w :: x :: xs)) [] = w :: x :: xs
      rw [hj, h1, pyWordsAux_ws_cons ' ' (by decide) _ _
        (by simpa using hw.1), List.reverse_reverse]
      have h2 : pyWordsAux (joinWords (x :: xs)) [] = pyWords (joinWords (x :: xs)) := rfl
      rw [h2, ih (fun v hv => h v (List.mem_cons_of_mem w hv))]

theorem dropWhile_eq_self_of_head (l : List Char)
    (h : ∀ c, l.head? = some c → c.isWhitespace = false) :
    l.dropWhile Char.isWhitespace = l := by
  cases l with
  | nil => rfl
  | cons c cs =>
    rw [List.dropWhile_cons, if_neg]
    simp [h c rfl]

theorem pyStrip_eq_self (l : List Char)
    (hhead : ∀ c, l.head? = some c → c.isWhitespace = false)
    (hlast : ∀ c, l.getLast? = some c → c.isWhitespace = false) :
    pyStrip l = l := by
  rw [pyStrip, dropWhile_eq_self_of_head l hhead,
    dropWhile_eq_self_of_head l.reverse
      (fun c hc => hlast c (by rwa [List.head?_reverse] at hc)),
    List.reverse_reverse]

theorem joinWords_cons_cons (w x : List Char) (xs : List (List Char)) :
    joinWords (w :: x :: xs) = w ++ ' ' :: joinWords (x :: xs) := rfl

theorem joinWords_ne_nil (w : List Char) (ws : List (List Char))
    (hw : w ≠ []) : joinWords (w :: ws) ≠ [] := by
  cases ws with
  | nil => exact hw
  | cons x xs =>
    rw [joinWords_cons_cons]
    simp

theorem joinWords_head_nonws (ws : List (List Char))
    (h : ∀ w ∈ ws, w ≠ [] ∧ ∀ c ∈ w, c.isWhitespace = false) :
    ∀ c, (joinWords ws).head? = some c → c.isWhitespace = false := by
  cases ws with
  | nil => intro c hc; simp [joinWords] at hc
  | cons w ws2 =>
    have hw := h w (List.mem_cons_self w ws2)
    cases hwshape : w with
    | nil => exact absurd hwshape hw.1
    | cons d w2 =>
      intro c hc
      have hd : d.isWhitespace = false :=
        hw.2 d (by rw [hwshape]; exact List.mem_cons_self d w2)
      cases ws2 with
      | nil =>
        have hje : joinWords [d :: w2] = d :: w2 := rfl
        rw [hje] at hc
        simp only [List.head?_cons, Option.some.injEq] at hc
        rw [← hc]
        exact hd
      | cons x xs =>
        rw [joinWords_cons_cons, List.cons_append] at hc
        simp only [List.head?_cons, Option.some.injEq] at hc
        rw [← hc]
        exact hd

theorem joinWords_getLast_nonws (ws : List (List Char))
    (h : ∀ w ∈ ws, w ≠ [] ∧ ∀ c ∈ w, c.isWhitespace = false) :
    ∀ c, (joinWords ws).getLast? = some c → c.isWhitespace = false := by
  induction ws with
  | nil => intro c hc; simp [joinWords] at hc
  | cons w ws2 ih =>
    have hw := h w (List.mem_cons_self w ws2)
    cases ws2 with
    | nil =>
      intro c hc
      have hmem : c ∈ w := List.mem_of_getLast?_eq_some hc
      exact hw.2 c hmem
    | cons x xs =>
      intro c hc
      rw [joinWords_cons_cons, List.getLast?_append] at hc
      have hxne : joinWords (x :: xs) ≠ [] :=
        joinWords_ne_nil x xs (h x (by simp)).1
      have hlast_ne : (' ' :: joinWords (x :: xs)).getLast?
          = (joinWords (x :: xs)).getLast? := by
        cases hjs : joinWords (x :: xs) with
        | nil => exact absurd hjs hxne
        | cons y ys => rw [List.getLast?_cons_cons]
      rw [hlast_ne] at hc
      rcases hgl : (joinWords (x :: xs)).getLast? with _ | d
      · exact absurd (List.getLast?_eq_none_iff.mp hgl) hxne
      · rw [hgl, Option.or_some, Option.some.injEq] at hc
        rw [← hc]
        exact ih (fun v hv => h v (List.mem_cons_of_mem w hv)) d hgl

theorem strip_join_eq (win : List (List Char))
    (hwin : ∀ w ∈ win, w ≠ [] ∧ ∀ c ∈ w, c.isWhitespace = false) :
    pyStrip (joinWords win) = joinWords win :=
  pyStrip_eq_self _ (joinWords_head_nonws win hwin)
    (joinWords_getLast_nonws win hwin)

theorem mem_take_drop_of_index (words : List (List Char))
    (chunk_size step j : ℕ) (hstep : 1 ≤ step) (hsize : step ≤ chunk_size)
    (hj : j < words.length) (w : List Char) (hw : words[j]? = some w) :
    ∃ i ∈ List.range' 0 (numWindows words.length step) step,
      w ∈ (words.drop i).take chunk_size := by
  refine ⟨step * (j / step), ?_, ?_⟩
  · rw [List.mem_range']
    refine ⟨j / step, ?_, by omega⟩
    have h1 : words.length + step - 1 = (words.length - 1) + step := by omega
    have h2 : numWindows words.length step = (words.length - 1) / step + 1 := by
      rw [numWindows, h1, Nat.add_div_right _ hstep]
    have h3 : j / step ≤ (words.length - 1) / step :=
      Nat.div_le_div_right (by omega)
    omega
  · rw [List.mem_iff_getElem?]
    refine ⟨j - step * (j / step), ?_⟩
    have hmod : step * (j / step) + j % step = j := Nat.div_add_mod j step
    have hlt : j % step < step := Nat.mod_lt j hstep
    rw [List.getElem?_take_of_lt (by omega), List.getElem?_drop]
    rw [show step * (j / step) + (j - step * (j / step)) = j from by omega]
    exact hw

/-- C7: with `overlap < size`, `chunk_text` returns successfully; the output
is a function of the input (determinism); no chunk is empty or
whitespace-only; and every word of the input text occurs as a word of at
least one chunk. -/
theorem chunk_text_no_empty_and_covers (text : List Char)
    (chunk_size overlap : ℕ) (hov : overlap < chunk_size) :
    ∃ cs, chunk_text text chunk_size overlap = some cs
      ∧ (∀ t2 : List Char, t2 = text → chunk_text t2 chunk_size overlap = some cs)
      ∧ (∀ c ∈ cs, c ≠ [] ∧ ∃ ch ∈ c, ch.isWhitespace = false)
      ∧ (∀ w ∈ pyWords text, ∃ c ∈ cs, w ∈ pyWords c) := by
  have hne : ¬(chunk_size = overlap) := by omega
  have hnlt : ¬(chunk_size < overlap) := by omega
  have hstep : 1 ≤ chunk_size - overlap := by omega
  have hsize : chunk_size - overlap ≤ chunk_size := by omega
  have hct : chunk_text text chunk_size overlap
      = some (((List.range' 0
            (numWindows (pyWords text).length (chunk_size - overlap))
            (chunk_size - overlap)).map
          (fun i => ((pyWords text).drop i).take chunk_size)).filterMap
        (fun win =>
          let c := pyStrip (joinWords win)
          if c = [] then none else some c)) := by
    simp only [chunk_text, if_neg hne, if_neg hnlt]
  refine ⟨_, hct, fun t2 ht2 => by rw [ht2]; exact hct, ?_, ?_⟩
  · intro c hc
    rcases List.mem_filterMap.mp hc with ⟨win, hwin_mem, hf⟩
    have hgood : ∀ w ∈ win, w ≠ [] ∧ ∀ ch ∈ w, ch.isWhitespace = false := by
      rcases List.mem_map.mp hwin_mem with ⟨i, _, hwin_eq⟩
      intro w hw
      refine pyWords_good text w ?_
      rw [← hwin_eq] at hw
      exact List.mem_of_mem_drop (List.mem_of_mem_take hw)
    have hstrip : pyStrip (joinWords win) = joinWords win := strip_join_eq win hgood
    dsimp only at hf
    rw [hstrip] at hf
    by_cases hnil : joinWords win = []
    · rw [if_pos hnil] at hf
      exact absurd hf (Option.noConfusion)
    · rw [if_neg hnil, Option.some.injEq] at hf
      subst hf
      refine ⟨hnil, ?_⟩
      cases hcshape : joinWords win with
      | nil => exact absurd hcshape hnil
      | cons ch rest =>
        refine ⟨ch, List.mem_cons_self ch rest, ?_⟩
        refine joinWords_head_nonws win hgood ch ?_
        rw [hcshape]
        rfl
  · intro w hw
    rcases List.mem_iff_getElem?.mp hw with ⟨j, hj2⟩
    have hj : j < (pyWords text).length := by
      rcases List.getElem?_eq_some_iff.mp hj2 with ⟨hlt, _⟩
      exact hlt
    rcases mem_take_drop_of_index (pyWords text) chunk_size
      (chunk_size - overlap) j hstep hsize hj w hj2 with ⟨i, hi, hwmem⟩
    have hgood : ∀ v ∈ ((pyWords text).drop i).take chunk_size,
        v ≠ [] ∧ ∀ ch ∈ v, ch.isWhitespace = false := by
      intro v hv
      exact pyWords_good text v (List.mem_of_mem_drop (List.mem_of_mem_take hv))
    have hround : pyWords (joinWords (((pyWords text).drop i).take chunk_size))
        = ((pyWords text).drop i).take chunk_size :=
      pyWords_joinWords _ hgood
    have hwin_ne : joinWords (((pyWords text).drop i).take chunk_size) ≠ [] := by
      cases hws : ((pyWords text).drop i).take chunk_size with
      | nil =>
        rw [hws] at hwmem
        exact absurd hwmem (List.not_mem_nil w)
      | cons v vs =>
        refine joinWords_ne_nil v vs ?_
        exact (hgood v (by rw [hws]; exact List.mem_cons_self v vs)).1
    refine ⟨joinWords (((pyWords text).drop i).take chunk_size), ?_, ?_⟩
    · refine List.mem_filterMap.mpr ⟨((pyWords text).drop i).take chunk_size,
        List.mem_map.mpr ⟨i, hi, rfl⟩, ?_⟩
      dsimp only
      rw [strip_join_eq _ hgood, if_neg hwin_ne]
    · rw [hround]
      exact hwmem

/-- Witness for C7 at the default parameters on a concrete text. -/
theorem chunk_text_no_empty_and_covers_witness :
    (50 : ℕ) < 500
    ∧ ∃ cs, chunk_text "alpha beta".toList 500 50 = some cs
      ∧ (∀ t2 : List Char, t2 = "alpha beta".toList →
          chunk_text t2 500 50 = some cs)
      ∧ (∀ c ∈ cs, c ≠ [] ∧ ∃ ch ∈ c, ch.isWhitespace = false)
      ∧ (∀ w ∈ pyWords "alpha beta".toList, ∃ c ∈ cs, w ∈ pyWords c) :=
  ⟨by decide, chunk_text_no_empty_and_covers "alpha beta".toList 500 50 (by decide)⟩
